import Mathlib

/-!
Verification of the simple-rag-pdf document indexing and hybrid
retrieval/reranking engine, shallowly embedded in Lean 4.

The embedding follows the Python source:
* `src/pdf_rag.py` (`PDFRagSystem.import_pdf`, `ReRankingRAG.search`)
* `src/src/rag/loaders/pdf.py` (`PDFRagSystem.__init__/import_pdf/import_text_file`)
* `src/old/multi_source_rag.py` (`MultiSourceRagSystem.add_pdf/add_text_file/`
  `add_manual_text/build_index/remove_source`)
* `src/src/rag/models/multi_source_reranking.py` (`MultiSourceReRankingRAG`)

External collaborators (the PDF loader, the recursive text splitter, the
embedding model, the BM25 scorer and the cross-encoder) are passed in as
oracle function parameters; the fusion step of `EnsembleRetriever` is
modelled from the spec (see `fuse`) because its implementation lives in a
third-party library.

Python ints are embedded as `Int`/`Nat` (no modelled path overflows),
strings as `String` (Python `len` counts code points, as does
`String.length`).
-/

namespace RagSpec

/-! ### Decimal rendering of naturals

Python f-strings render the page number and chunk counter in decimal
(`f"chunk_{page}_{idx}"`).  We model decimal rendering with a fuel-based
(hence kernel-reducible) digit function and prove the two facts chunk-id
reasoning needs: decimal strings are injective and never contain `_`. -/

/-- Little-endian decimal digits, with explicit fuel so the definition is
structurally recursive. -/
def decAux : Nat → Nat → List Nat
  | 0, _ => []
  | fuel + 1, n => if n < 10 then [n] else n % 10 :: decAux fuel (n / 10)

/-- Little-endian decimal digits of `n` (`toDec 0 = [0]`). -/
def toDec (n : Nat) : List Nat := decAux (n + 1) n

/-- Recombine little-endian digits into a natural number. -/
def ofDec : List Nat → Nat
  | [] => 0
  | d :: rest => d + 10 * ofDec rest

/-- The character for a single decimal digit. -/
def digitChar (d : Nat) : Char := Char.ofNat (48 + d)

/-- Decimal string of a natural number, as rendered by a Python f-string. -/
def natStr (n : Nat) : String := String.mk ((toDec n).reverse.map digitChar)

/-! ### Text normalization

`clean_text` (inlined in `pdf_rag.py` and used from `utils` elsewhere) is
`re.sub(r"\n{3,}", "\n\n", text).strip()`: runs of three or more newlines
collapse to exactly two, then surrounding whitespace is stripped. -/

/-- One pass over the characters keeping a count of the newline run seen so
far: the first two newlines of a run are kept, the rest dropped.  This is
exactly the effect of `re.sub(r"\n{3,}", "\n\n", ·)`. -/
def collapseAux : Nat → List Char → List Char
  | _, [] => []
  | run, c :: rest =>
    if c = '\n' then
      if 2 ≤ run then collapseAux run rest
      else '\n' :: collapseAux (run + 1) rest
    else c :: collapseAux 0 rest

/-- Characters removed by Python `str.strip()` (space, `\t`, `\n`, `\v`,
`\f`, `\r`). -/
def isStripChar (c : Char) : Bool := decide (c.toNat = 32 ∨ (9 ≤ c.toNat ∧ c.toNat ≤ 13))

/-- Drop strip-characters from both ends. -/
def stripChars (l : List Char) : List Char :=
  ((l.dropWhile isStripChar).reverse.dropWhile isStripChar).reverse

/-- `clean_text`: collapse newline runs, then strip. -/
def clean (s : String) : String := String.mk (stripChars (collapseAux 0 s.data))

/-! ### Chunks and chunk ids -/

/-- A chunk as stored in `self.docs`: a langchain `Document` whose metadata
carries `chunk_id`, `page` and (in the multi-source system) `source_type`
and `source_name`; `text` is `page_content`.  The single-source
`PDFRagSystem` stores no source metadata (`none`). -/
structure Chunk where
  chunk_id : String
  text : String
  page : Nat
  source_type : Option String
  source_name : Option String
deriving DecidableEq

/-- The id assigned to a chunk: `f"chunk_{page}_{idx}"`. -/
def mkChunkId (page idx : Nat) : String :=
  "chunk_" ++ natStr page ++ "_" ++ natStr idx

/-- Whether a cleaned piece of text is retained:
`if text and len(text) > min_chunk_length`. -/
def keepChunk (minLen : Int) (t : String) : Bool :=
  decide (t ≠ "" ∧ minLen < (t.length : Int))

/-- The chunk-construction loop shared by every ingestion path
(`for idx, c in enumerate(chunks): text = clean_text(c.page_content);
if text and len(text) > …: chunk_id = f"chunk_{page}_{idx}"; …`).
`pieces` are the splitter's output documents as (page_content, page)
pairs; `idx` is the running loop counter. -/
def mkChunksAux (minLen : Int) (stype sname : Option String) :
    Nat → List (String × Nat) → List Chunk
  | _, [] => []
  | idx, (txt, page) :: rest =>
    if keepChunk minLen (clean txt) then
      ⟨mkChunkId page idx, clean txt, page, stype, sname⟩
        :: mkChunksAux minLen stype sname (idx + 1) rest
    else mkChunksAux minLen stype sname (idx + 1) rest

/-! ### Stable descending sort

`sorted(zip(candidates, scores), key=lambda x: x[1], reverse=True)` is a
stable sort, descending on the score: ties keep the input order.  The
stable descending sort on key `s` is insertion sort with the relation
`s b ≤ s a` (an element is inserted before the first element whose score
is not larger). -/

section Sorting

variable {α : Type}

/-- The descending comparison used by a reverse stable sort on key `s`. -/
def scoreGe (s : α → Rat) (a b : α) : Prop := s b ≤ s a

instance scoreGeDec (s : α → Rat) : DecidableRel (scoreGe s) :=
  fun _ _ => inferInstanceAs (Decidable (_ ≤ _))

instance scoreGeTotal (s : α → Rat) : IsTotal α (scoreGe s) :=
  ⟨fun a b => (le_total (s a) (s b)).symm⟩

instance scoreGeTrans (s : α → Rat) : IsTrans α (scoreGe s) :=
  ⟨fun _ _ _ h₁ h₂ => le_trans h₂ h₁⟩

/-- Python's `sorted(…, key=s, reverse=True)`. -/
def stableSortDesc (s : α → Rat) (l : List α) : List α :=
  l.insertionSort (scoreGe s)

end Sorting

/-! ### Fusion retriever -/

section Fusion

variable {α : Type} [DecidableEq α]

/-- Modelled from the spec: the Fusion Retriever's per-list contribution.
The implementation delegates fusion to the external `EnsembleRetriever`
collaborator (weighted reciprocal-rank fusion), which is not part of this
repository; following spec §4.6 a candidate's contribution from one
ranked list is a normalized, strictly rank-decreasing positive value —
`1 / (rank + 1)` — and a candidate absent from the list contributes 0. -/
def rankContrib (l : List α) (x : α) : Rat :=
  if x ∈ l then 1 / ((List.indexOf x l : Rat) + 1) else 0

/-- Modelled from the spec: fused score as the weighted sum of the two
per-list contributions. -/
def fusedScore (ws wk : Rat) (semL lexL : List α) (x : α) : Rat :=
  ws * rankContrib semL x + wk * rankContrib lexL x

/-- Modelled from the spec: union the two candidate lists (semantic list
first, then the lexical candidates not already present) and stably sort
descending by fused score. -/
def fuse (ws wk : Rat) (semL lexL : List α) : List α :=
  stableSortDesc (fusedScore ws wk semL lexL)
    (semL ++ lexL.filter (fun x => decide (x ∉ semL)))

end Fusion

/-! ### Reranker -/

/-- The rerank-and-truncate step of `search`:
`pairs = [(question, d.page_content) for d in candidates];
scores = reranker.predict(pairs);
ranked = sorted(zip(candidates, scores), key=lambda x: x[1], reverse=True);
return [doc for doc, _score in ranked[:k]]`.
The cross-encoder is the external collaborator `ce`. -/
def rerankChunks (ce : String → String → Rat) (q : String)
    (candidates : List Chunk) (k : Nat) : List Chunk :=
  (stableSortDesc (fun d => ce q d.text) candidates).take k

/-! ### Error taxonomy

The spec names `EmptyCorpus`, `IndexOutOfRange`, `IndexNotReady`, …; the
Python code raises `ValueError` for an empty corpus, `IndexError` for an
out-of-range removal, and `AttributeError` when an operation dereferences
a cleared (`None`) index.  `indexNotReady` is included because the spec
demands it; no code path produces it. -/

inductive RagError where
  | indexNotReady
  | indexOutOfRange
  | emptyCorpus
  | embeddingFailure
  | attributeError
deriving DecidableEq

deriving instance DecidableEq for Except

/-- An entry of `self.sources`:
`{"type": …, "name": …, "path": …}`. -/
structure SourceInfo where
  type : String
  name : String
  path : Option String
deriving DecidableEq

/-- `BM25Retriever.from_documents(docs)` with `bm25.k = 60`: the built
lexical index remembers the chunk set it was built from and its candidate
count. -/
structure BM25State where
  docs : List Chunk
  k : Nat
deriving DecidableEq

/-- `Chroma.from_documents(docs, embeddings, …)`: the built semantic index
remembers the chunk set it was built from (the embedding collaborator is
an oracle supplied at query time). -/
structure VSState where
  docs : List Chunk
deriving DecidableEq

/-- `MultiSourceRagSystem` state (`src/old/multi_source_rag.py`):
`persist_dir`, `docs`, `sources`, `bm25`, `vectorstore`; `persistStore`
models the on-disk Chroma directory. -/
structure MSState where
  persist_dir : String
  docs : List Chunk
  sources : List SourceInfo
  bm25 : Option BM25State
  vectorstore : Option VSState
  persistStore : Option (List Chunk)
deriving DecidableEq

/-- `MultiSourceRagSystem.__init__(persist_dir)`; `disk` is whatever
Chroma directory already exists on disk, if any. -/
def initMS (pd : String) (disk : Option (List Chunk)) : MSState :=
  ⟨pd, [], [], none, none, disk⟩

/-- `add_pdf`: split each loaded page with the external splitter, run the
chunk loop over the concatenation (the loop counter spans pages), append
chunks and register the source. The indexes are not touched. -/
def addPdf (split : String → List String) (st : MSState)
    (rawPages : List (String × Nat)) (pdfPath sourceName : String) : MSState :=
  let pieces := rawPages.flatMap fun pc => (split pc.1).map fun t => (t, pc.2)
  { st with
    docs := st.docs ++ mkChunksAux 120 (some "pdf") (some sourceName) 0 pieces
    sources := st.sources ++ [⟨"pdf", sourceName, some pdfPath⟩] }

/-- `add_text_file` on the already-decoded file `content` (the encoding
fallback chain is the loader collaborator's concern). -/
def addTextFile (split : String → List String) (st : MSState)
    (content textPath sourceName : String) : MSState :=
  { st with
    docs := st.docs ++ mkChunksAux 120 (some "text_file") (some sourceName) 0
      ((split content).map fun t => (t, 0))
    sources := st.sources ++ [⟨"text_file", sourceName, some textPath⟩] }

/-- `add_manual_text`. -/
def addManualText (split : String → List String) (st : MSState)
    (content sourceName : String) : MSState :=
  { st with
    docs := st.docs ++ mkChunksAux 120 (some "manual_text") (some sourceName) 0
      ((split content).map fun t => (t, 0))
    sources := st.sources ++ [⟨"manual_text", sourceName, none⟩] }

/-- `build_index`: raise on an empty corpus; otherwise `rm -rf` the
persisted store, rebuild BM25, then build the Chroma store.  The embedding
collaborator may fail (`embedOk = false`, e.g. a dimension mismatch);
the pair returned is (error if any, the state after the call). -/
def buildIndex (embedOk : Bool) (st : MSState) : Option RagError × MSState :=
  if st.docs = [] then (some .emptyCorpus, st)
  else
    let st2 := { st with persistStore := none, bm25 := some ⟨st.docs, 60⟩ }
    if embedOk then
      (none, { st2 with vectorstore := some ⟨st.docs⟩, persistStore := some st.docs })
    else (some .embeddingFailure, st2)

/-- The chunk-to-source match used by `remove_source`:
`doc.metadata.get('source_type') == source_type and
doc.metadata.get('source_name') == source_name`. -/
def chunkOf (s : SourceInfo) (c : Chunk) : Bool :=
  decide (c.source_type = some s.type ∧ c.source_name = some s.name)

/-- `remove_source(i)`: reject an out-of-range index; otherwise drop every
chunk whose `(source_type, source_name)` equals the selected source's,
remove the registry entry, and clear both index references. -/
def removeSource (st : MSState) (i : Int) : Except RagError MSState :=
  if i < 0 ∨ (st.sources.length : Int) ≤ i then .error .indexOutOfRange
  else
    let src := st.sources.getD i.toNat ⟨"", "", none⟩
    .ok { st with
      docs := st.docs.filter fun c => !(chunkOf src c)
      sources := st.sources.eraseIdx i.toNat
      bm25 := none
      vectorstore := none }

/-- `MultiSourceReRankingRAG` after `__init__`: it captures `docs`,
`bm25` and `vectorstore` from the system once, at construction. -/
structure Reranker where
  docs : List Chunk
  bm25 : Option BM25State
  vectorstore : VSState
deriving DecidableEq

/-- `MultiSourceReRankingRAG.__init__`: dereferences
`multi_source_system.vectorstore.as_retriever(…)`, which raises if the
vectorstore reference is `None`; a `None` BM25 is stored without error. -/
def mkRerankerE (st : MSState) : Except RagError Reranker :=
  match st.vectorstore with
  | none => .error .attributeError
  | some vs => .ok ⟨st.docs, st.bm25, vs⟩

/-- `MultiSourceReRankingRAG.search`: query the captured semantic retriever
(top 60) and the captured BM25 (top `bm25.k`), fuse with the caller's
weights via the ensemble, then cross-encoder rerank and truncate to `k`.
`semRank`/`bmRank` are the collaborators' ranking oracles over the chunk
set each index was built from; `candidateK` is accepted and never used,
as in the source.  No staleness check of any kind is performed. -/
def searchMS (semRank bmRank : List Chunk → String → List Chunk)
    (ce : String → String → Rat) (rr : Reranker) (q : String) (k : Nat)
    (ws wk : Rat) (_candidateK : Nat) : Except RagError (List Chunk) :=
  match rr.bm25 with
  | none => .error .attributeError
  | some bm =>
    .ok (rerankChunks ce q
      (fuse ws wk ((semRank rr.vectorstore.docs q).take 60)
        ((bmRank bm.docs q).take bm.k)) k)

/-! ### Single-file `PDFRagSystem` (`src/src/rag/loaders/pdf.py`) -/

/-- `PDFRagSystem` state: configuration plus chunk store and indexes. -/
structure PDFState where
  persist_dir : String
  chunk_size : Int
  chunk_overlap : Int
  min_chunk_length : Int
  vectorstore : Option VSState
  docs : List Chunk
  file_path : Option String
  file_type : Option String
  bm25 : Option BM25State
  persistStore : Option (List Chunk)
deriving DecidableEq

/-- `PDFRagSystem.__init__`: every parameter is stored verbatim; no
validation of any kind is performed. -/
def initPDF (pd : String) (cs co ml : Int) (disk : Option (List Chunk)) : PDFState :=
  ⟨pd, cs, co, ml, none, [], none, none, none, disk⟩

/-- `PDFRagSystem.__init__` as a fallible call (a Python constructor can
raise): the code performs no checks, so it always succeeds. -/
def mkPDFRagSystemE (pd : String) (cs co ml : Int) (disk : Option (List Chunk)) :
    Except RagError PDFState :=
  .ok (initPDF pd cs co ml disk)

/-- `PDFRagSystem.import_pdf`: split the loaded pages with the configured
splitter, run the chunk loop, then **replace** `self.docs`, rebuild BM25,
delete and recreate the persisted Chroma store.  `splitDocs` is the
external splitter, configured with `(chunk_size, chunk_overlap)`. -/
def importPdf (splitDocs : Int → Int → List (String × Nat) → List (String × Nat))
    (st : PDFState) (rawPages : List (String × Nat)) : PDFState :=
  let chunks := mkChunksAux st.min_chunk_length none none 0
    (splitDocs st.chunk_size st.chunk_overlap rawPages)
  { st with
    docs := chunks
    bm25 := some ⟨chunks, 60⟩
    persistStore := some chunks
    vectorstore := some ⟨chunks⟩ }

/-- `PDFRagSystem.import_text_file` on the already-decoded `content`:
records `file_path`/`file_type`, then replaces the chunk set and rebuilds
both indexes exactly like `import_pdf`. -/
def importTextFile (splitDocs : Int → Int → List (String × Nat) → List (String × Nat))
    (st : PDFState) (textPath content : String) : PDFState :=
  let chunks := mkChunksAux st.min_chunk_length none none 0
    (splitDocs st.chunk_size st.chunk_overlap [(content, 0)])
  { st with
    file_path := some textPath
    file_type := some "text"
    docs := chunks
    bm25 := some ⟨chunks, 60⟩
    persistStore := some chunks
    vectorstore := some ⟨chunks⟩ }

/-! ### A concrete executable scenario

One source of 121 characters is ingested and indexed, then a second
source with the same text is added without rebuilding.  The real
`RecursiveCharacterTextSplitter` returns a text shorter than
`chunk_size = 420` as a single piece, which `splitWhole` models. -/

/-- The external splitter on a text shorter than `chunk_size`: one piece. -/
def splitWhole : String → List String := fun s => [s]

/-- A 121-character text: one character above the retention threshold. -/
def tA : String := String.mk (List.replicate 121 'a')

/-- The chunk produced by ingesting `tA` as manual text named `s1`. -/
def cA1 : Chunk := ⟨mkChunkId 0 0, tA, 0, some "manual_text", some "s1"⟩

/-- The chunk produced by ingesting `tA` as manual text named `s2`. -/
def cA2 : Chunk := ⟨mkChunkId 0 0, tA, 0, some "manual_text", some "s2"⟩

/-- State after `add_manual_text(tA, "s1")`. -/
def sysA1 : MSState := addManualText splitWhole (initMS "db" none) tA "s1"

/-- State after a successful `build_index()`: READY. -/
def sysA2 : MSState := (buildIndex true sysA1).2

/-- State after a further `add_manual_text(tA, "s2")`: the chunk set is
mutated after the last build, so per the spec the indexes are stale. -/
def sysA3 : MSState := addManualText splitWhole sysA2 tA "s2"

/-- A 121-character text distinct from `tA`. -/
def tC : String := String.mk (List.replicate 121 'c')

/-- A READY `MultiSourceRagSystem` state holding one indexed chunk. -/
def stC1 : MSState :=
  ⟨"db", [cA1], [⟨"manual_text", "s1", none⟩], some ⟨[cA1], 60⟩,
    some ⟨[cA1]⟩, some [cA1]⟩

/-- A chunk belonging to a registered text-file source `s2`. -/
def cW2 : Chunk := ⟨mkChunkId 0 0, tA, 0, some "text_file", some "s2"⟩

/-- A state with two sources of distinct `(type, name)` keys, one chunk
each. -/
def stW4 : MSState :=
  ⟨"db", [cA1, cW2],
    [⟨"manual_text", "s1", none⟩, ⟨"text_file", "s2", some "p.txt"⟩],
    none, none, none⟩

/-! ### Helper lemmas about the chunk loop -/

/-! ### Claim theorems -/

/-! ### Lemmas and claim theorems -/

theorem ofDec_decAux : ∀ fuel n, n ≤ fuel + 1 → ofDec (decAux (fuel + 1) n) = n := by
  intro fuel
  induction fuel with
  | zero =>
    intro n hn
    have h10 : n < 10 := by omega
    simp [decAux, h10, ofDec]
  | succ f ih =>
    intro n hn
    by_cases h10 : n < 10
    · simp [decAux, h10, ofDec]
    · rw [show decAux (f + 1 + 1) n
          = if n < 10 then [n] else n % 10 :: decAux (f + 1) (n / 10) from rfl,
        if_neg h10]
      simp only [ofDec]
      rw [ih (n / 10) (by omega)]
      omega

theorem ofDec_toDec (n : Nat) : ofDec (toDec n) = n :=
  ofDec_decAux n n (by omega)

theorem toDec_injective : Function.Injective toDec := by
  intro a b h
  have ha := ofDec_toDec a
  rw [h, ofDec_toDec] at ha
  exact ha.symm

theorem decAux_lt_ten : ∀ fuel n d, d ∈ decAux fuel n → d < 10 := by
  intro fuel
  induction fuel with
  | zero => intro n d hd; simp [decAux] at hd
  | succ f ih =>
    intro n d hd
    by_cases h10 : n < 10
    · simp [decAux, h10] at hd
      omega
    · simp only [decAux, if_neg h10, List.mem_cons] at hd
      rcases hd with h | h
      · omega
      · exact ih _ _ h

theorem toDec_lt_ten (n : Nat) : ∀ d ∈ toDec n, d < 10 :=
  fun d hd => decAux_lt_ten (n + 1) n d hd

theorem digitChar_val {d : Nat} (hd : d < 10) : (digitChar d).toNat = 48 + d := by
  interval_cases d <;> rfl

theorem digitChar_ne_underscore {d : Nat} (hd : d < 10) : digitChar d ≠ '_' := by
  intro h
  have hv := congrArg Char.toNat h
  rw [digitChar_val hd] at hv
  have h95 : ('_').toNat = 95 := rfl
  rw [h95] at hv
  omega

theorem map_digitChar_cancel :
    ∀ l : List Nat, (∀ d ∈ l, d < 10) →
      (l.map digitChar).map (fun c => c.toNat - 48) = l := by
  intro l hl
  rw [List.map_map]
  have hcongr : ∀ d ∈ l, ((fun c => c.toNat - 48) ∘ digitChar) d = id d := by
    intro d hd
    simp [Function.comp, digitChar_val (hl d hd)]
  rw [List.map_congr_left hcongr, List.map_id]

theorem natStr_injective : Function.Injective natStr := by
  intro a b h
  apply toDec_injective
  have hdata : (toDec a).reverse.map digitChar = (toDec b).reverse.map digitChar :=
    congrArg String.data h
  have ha := map_digitChar_cancel (toDec a).reverse
    (fun d hd => toDec_lt_ten a d (List.mem_reverse.mp hd))
  have hb := map_digitChar_cancel (toDec b).reverse
    (fun d hd => toDec_lt_ten b d (List.mem_reverse.mp hd))
  rw [hdata] at ha
  rw [ha] at hb
  exact List.reverse_injective hb

theorem natStr_no_underscore (n : Nat) : ∀ c ∈ (natStr n).data, c ≠ '_' := by
  intro c hc
  simp only [natStr, List.mem_map] at hc
  obtain ⟨d, hd, rfl⟩ := hc
  exact digitChar_ne_underscore (toDec_lt_ten n d (List.mem_reverse.mp hd))

theorem natStr_data_inj {a b : Nat} (h : (natStr a).data = (natStr b).data) : a = b :=
  natStr_injective (String.ext h)

theorem mkChunkId_data (p i : Nat) :
    (mkChunkId p i).data
      = "chunk_".data ++ ((natStr p).data ++ ('_' :: (natStr i).data)) := by
  simp [mkChunkId, String.data_append]

theorem takeWhile_append_stop {α} (p : α → Bool) (l : List α) (x : α) (r : List α)
    (hl : ∀ a ∈ l, p a = true) (hx : p x = false) :
    (l ++ x :: r).takeWhile p = l := by
  induction l with
  | nil => simp [List.takeWhile_cons, hx]
  | cons a t ih =>
    have ha : p a = true := hl a (List.mem_cons_self a t)
    simp only [List.cons_append, List.takeWhile_cons, ha, if_true]
    rw [ih (fun b hb => hl b (List.mem_cons_of_mem a hb))]

/-- The trailing decimal counter determines the chunk counter: the id is
read backwards up to the last `_`. -/
theorem mkChunkId_inj_idx {p i p' i' : Nat} (h : mkChunkId p i = mkChunkId p' i') :
    i = i' := by
  have hd := congrArg (fun s => (s.data.reverse.takeWhile fun c => decide (c ≠ '_'))) h
  simp only [mkChunkId_data, List.reverse_append, List.reverse_cons,
    List.append_assoc, List.singleton_append, List.cons_append] at hd
  have key : ∀ n : Nat, ∀ R : List Char,
      (((natStr n).data.reverse ++ ('_' :: R)).takeWhile fun c => decide (c ≠ '_'))
        = (natStr n).data.reverse := by
    intro n R
    exact takeWhile_append_stop _ _ _ _
      (fun c hc => by
        simpa using natStr_no_underscore n c (List.mem_reverse.mp hc))
      (by simp)
  rw [key i, key i'] at hd
  exact natStr_data_inj (List.reverse_injective hd)

/-- Declarative description of the loop: enumerate all split pieces from
`i`, keep those passing the filter, build a chunk from each survivor with
its pre-filter index. -/
theorem mkChunksAux_eq_enumFrom (minLen : Int) (st sn : Option String) :
    ∀ i pieces,
      mkChunksAux minLen st sn i pieces
        = ((List.enumFrom i pieces).filter fun x => keepChunk minLen (clean x.2.1)).map
            fun x => ⟨mkChunkId x.2.2 x.1, clean x.2.1, x.2.2, st, sn⟩ := by
  intro i pieces
  induction pieces generalizing i with
  | nil => simp [mkChunksAux]
  | cons hd tl ih =>
    obtain ⟨txt, page⟩ := hd
    by_cases hk : keepChunk minLen (clean txt) = true
    · simp [mkChunksAux, List.enumFrom, List.filter, hk, ih]
    · simp only [Bool.not_eq_true] at hk
      simp [mkChunksAux, List.enumFrom, List.filter, hk, ih]

theorem mem_mkChunksAux_ids (minLen : Int) (st sn : Option String) :
    ∀ i pieces s, s ∈ (mkChunksAux minLen st sn i pieces).map Chunk.chunk_id →
      ∃ pg idx, i ≤ idx ∧ s = mkChunkId pg idx := by
  intro i pieces
  induction pieces generalizing i with
  | nil => intro s hs; simp [mkChunksAux] at hs
  | cons hd tl ih =>
    obtain ⟨txt, page⟩ := hd
    intro s hs
    by_cases hk : keepChunk minLen (clean txt) = true
    · simp only [mkChunksAux, hk, if_true, List.map_cons, List.mem_cons] at hs
      rcases hs with rfl | hs
      · exact ⟨page, i, le_refl i, rfl⟩
      · obtain ⟨pg, idx, hle, rfl⟩ := ih (i + 1) s hs
        exact ⟨pg, idx, by omega, rfl⟩
    · simp only [mkChunksAux, hk, if_false, Bool.false_eq_true] at hs
      obtain ⟨pg, idx, hle, rfl⟩ := ih (i + 1) s hs
      exact ⟨pg, idx, by omega, rfl⟩

/-- Within a single ingestion call the generated chunk ids are pairwise
distinct: the loop counter strictly increases and is recoverable from the
id. -/
theorem mkChunksAux_ids_nodup (minLen : Int) (st sn : Option String) :
    ∀ i pieces, ((mkChunksAux minLen st sn i pieces).map Chunk.chunk_id).Nodup := by
  intro i pieces
  induction pieces generalizing i with
  | nil => simp [mkChunksAux]
  | cons hd tl ih =>
    obtain ⟨txt, page⟩ := hd
    by_cases hk : keepChunk minLen (clean txt) = true
    · simp only [mkChunksAux, hk, if_true, List.map_cons, List.nodup_cons]
      refine ⟨fun hmem => ?_, ih (i + 1)⟩
      obtain ⟨pg, idx, hle, heq⟩ := mem_mkChunksAux_ids minLen st sn (i + 1) tl _ hmem
      have := mkChunkId_inj_idx heq
      omega
    · simp only [mkChunksAux, hk, if_false, Bool.false_eq_true]
      exact ih (i + 1)

section Sorting

variable {α : Type}

theorem filter_orderedInsert_score (s : α → Rat) (c : Rat) (a : α) :
    ∀ L : List α,
      (L.orderedInsert (scoreGe s) a).filter (fun x => decide (s x = c))
        = if s a = c then a :: L.filter (fun x => decide (s x = c))
          else L.filter (fun x => decide (s x = c)) := by
  intro L
  induction L with
  | nil =>
    by_cases hc : s a = c <;> simp [List.orderedInsert, List.filter, hc]
  | cons b t ih =>
    by_cases hr : scoreGe s a b
    · rw [show (b :: t).orderedInsert (scoreGe s) a = a :: b :: t from by
        simp [List.orderedInsert, hr]]
      by_cases hc : s a = c <;> simp [List.filter_cons, hc]
    · rw [show (b :: t).orderedInsert (scoreGe s) a
          = b :: t.orderedInsert (scoreGe s) a from by
        simp [List.orderedInsert, hr]]
      have hb : s a < s b := lt_of_not_le hr
      by_cases hc : s a = c
      · have hbc : ¬(s b = c) := by rw [← hc]; exact ne_of_gt hb
        simp [List.filter_cons, hbc, ih, hc]
      · simp only [List.filter_cons, ih, if_neg hc]

/-- Stability of the reverse sort: elements of any one score class appear
in exactly their input order. -/
theorem filter_stableSortDesc_score (s : α → Rat) (c : Rat) :
    ∀ l : List α,
      (stableSortDesc s l).filter (fun x => decide (s x = c))
        = l.filter (fun x => decide (s x = c)) := by
  intro l
  induction l with
  | nil => rfl
  | cons a t ih =>
    rw [show stableSortDesc s (a :: t)
        = (stableSortDesc s t).orderedInsert (scoreGe s) a from rfl]
    rw [filter_orderedInsert_score, ih]
    by_cases hc : s a = c <;> simp [List.filter_cons, hc]

/-- Two lists sorted descending on a key that is injective on their
elements and permutations of each other are equal. -/
theorem eq_of_perm_of_sortedDesc (s : α → Rat) :
    ∀ l₁ l₂ : List α, l₁.Perm l₂ → l₁.Sorted (scoreGe s) → l₂.Sorted (scoreGe s) →
      (∀ a ∈ l₁, ∀ b ∈ l₁, s a = s b → a = b) → l₁ = l₂ := by
  intro l₁
  induction l₁ with
  | nil =>
    intro l₂ hp _ _ _
    exact (List.Perm.eq_nil hp.symm).symm
  | cons a t₁ ih =>
    intro l₂ hp h₁ h₂ hinj
    cases l₂ with
    | nil => exact absurd hp.symm (by simp)
    | cons b t₂ =>
      have hbmem : b ∈ a :: t₁ := hp.symm.subset (List.mem_cons_self b t₂)
      have hamem : a ∈ b :: t₂ := hp.subset (List.mem_cons_self a t₁)
      have hsba : s b ≤ s a := by
        rcases List.mem_cons.mp hbmem with rfl | hb
        · exact le_refl _
        · exact List.rel_of_sorted_cons h₁ b hb
      have hsab : s a ≤ s b := by
        rcases List.mem_cons.mp hamem with rfl | ha
        · exact le_refl _
        · exact List.rel_of_sorted_cons h₂ a ha
      have hab : a = b := hinj a (List.mem_cons_self a t₁) b hbmem (le_antisymm hsab hsba)
      subst hab
      have ht : t₁.Perm t₂ := hp.cons_inv
      have := ih t₂ ht h₁.of_cons h₂.of_cons
        (fun x hx y hy hxy => hinj x (List.mem_cons_of_mem a hx) y (List.mem_cons_of_mem a hy) hxy)
      rw [this]

end Sorting

section Fusion

variable {α : Type} [DecidableEq α]

theorem rankContrib_of_not_mem {l : List α} {x : α} (h : x ∉ l) :
    rankContrib l x = 0 := by
  simp [rankContrib, h]

theorem rankContrib_pos {l : List α} {x : α} (h : x ∈ l) : 0 < rankContrib l x := by
  simp only [rankContrib, if_pos h]
  positivity

theorem rankContrib_nonneg (l : List α) (x : α) : 0 ≤ rankContrib l x := by
  by_cases h : x ∈ l
  · exact le_of_lt (rankContrib_pos h)
  · simp [rankContrib_of_not_mem h]

theorem rankContrib_get_lt {l : List α} (hnd : l.Nodup) {i j : Fin l.length}
    (hij : i < j) : rankContrib l (l.get j) < rankContrib l (l.get i) := by
  have hi := List.indexOf_getElem hnd i.val i.isLt
  have hj := List.indexOf_getElem hnd j.val j.isLt
  simp only [rankContrib, if_pos (List.get_mem l _ _)]
  rw [show l.get i = l[i.val] from rfl, show l.get j = l[j.val] from rfl, hi, hj]
  have h1 : (0 : Rat) < (i.val : Rat) + 1 := by positivity
  rw [div_lt_div_iff₀ (by positivity) h1]
  have : (i.val : Rat) < (j.val : Rat) := by exact_mod_cast hij
  linarith

theorem rankContrib_inj_mem {l : List α} {a b : α} (ha : a ∈ l) (hb : b ∈ l)
    (h : rankContrib l a = rankContrib l b) : a = b := by
  simp only [rankContrib, if_pos ha, if_pos hb] at h
  have hcast : (List.indexOf a l : Rat) = (List.indexOf b l : Rat) := by
    rw [one_div, one_div] at h
    have h2 := inv_inj.mp h
    linarith
  have hidx : List.indexOf a l = List.indexOf b l := by exact_mod_cast hcast
  have h1 := List.indexOf_get (List.indexOf_lt_length.mpr ha)
  have h2 := List.indexOf_get (List.indexOf_lt_length.mpr hb)
  rw [← h1, ← h2]
  congr 1
  exact Fin.ext hidx

theorem sorted_scoreGe_rankContrib (l : List α) (hnd : l.Nodup) :
    l.Sorted (scoreGe (rankContrib l)) := by
  rw [List.Sorted, List.pairwise_iff_get]
  intro i j hij
  exact le_of_lt (rankContrib_get_lt hnd hij)

theorem union_perm (s l : List α) (hs : s.Nodup) (hl : l.Nodup) :
    (s ++ l.filter (fun x => decide (x ∉ s))).Perm
      (l ++ s.filter (fun x => decide (x ∉ l))) := by
  rw [List.perm_iff_count]
  intro x
  rw [List.count_append, List.count_append]
  have hzero : ∀ L M : List α, x ∈ M →
      List.count x (L.filter (fun y => decide (y ∉ M))) = 0 := by
    intro L M hxM
    apply List.count_eq_zero_of_not_mem
    intro hmem
    have := (List.mem_filter.mp hmem).2
    simp only [decide_eq_true_eq] at this
    exact this hxM
  have hzero' : ∀ L M : List α, x ∉ L →
      List.count x (L.filter (fun y => decide (y ∉ M))) = 0 := by
    intro L M hxL
    exact List.count_eq_zero_of_not_mem (fun hmem => hxL (List.mem_filter.mp hmem).1)
  have hone : ∀ L M : List α, L.Nodup → x ∈ L → x ∉ M →
      List.count x (L.filter (fun y => decide (y ∉ M))) = 1 := by
    intro L M hL hxL hxM
    exact List.count_eq_one_of_mem (hL.filter _)
      (List.mem_filter.mpr ⟨hxL, by simpa using hxM⟩)
  by_cases hxs : x ∈ s <;> by_cases hxl : x ∈ l
  · rw [List.count_eq_one_of_mem hs hxs, List.count_eq_one_of_mem hl hxl,
      hzero l s hxs, hzero s l hxl]
  · rw [List.count_eq_one_of_mem hs hxs, List.count_eq_zero_of_not_mem hxl,
      hzero' l s hxl, hone s l hs hxs hxl]
  · rw [List.count_eq_zero_of_not_mem hxs, List.count_eq_one_of_mem hl hxl,
      hone l s hl hxl hxs, hzero' s l hxs]
  · rw [List.count_eq_zero_of_not_mem hxs, List.count_eq_zero_of_not_mem hxl,
      hzero' l s hxl, hzero' s l hxs]

theorem fusedScore_one_zero (semL lexL : List α) (x : α) :
    fusedScore 1 0 semL lexL x = rankContrib semL x := by
  simp [fusedScore]

theorem fusedScore_zero_one (semL lexL : List α) (x : α) :
    fusedScore 0 1 semL lexL x = rankContrib lexL x := by
  simp [fusedScore]

/-- With weights (1, 0) the union list is already sorted by fused score:
the semantic candidates in strictly decreasing contribution order followed
by the lexical-only candidates, all at score 0. -/
theorem fuse_one_zero (semL lexL : List α) (hs : semL.Nodup) :
    (fuse 1 0 semL lexL).filter (fun x => decide (x ∈ semL)) = semL := by
  have hsorted : (semL ++ lexL.filter (fun x => decide (x ∉ semL))).Sorted
      (scoreGe (fusedScore 1 0 semL lexL)) := by
    rw [List.Sorted, List.pairwise_append]
    refine ⟨?_, ?_, ?_⟩
    · exact (sorted_scoreGe_rankContrib semL hs).imp (fun {a b} h => by
        simpa only [scoreGe, fusedScore_one_zero] using h)
    · apply List.pairwise_of_forall_mem_list
      intro a ha b hb
      have ha' : a ∉ semL := by simpa using (List.mem_filter.mp ha).2
      have hb' : b ∉ semL := by simpa using (List.mem_filter.mp hb).2
      show fusedScore 1 0 semL lexL b ≤ fusedScore 1 0 semL lexL a
      rw [fusedScore_one_zero, fusedScore_one_zero,
        rankContrib_of_not_mem ha', rankContrib_of_not_mem hb']
    · intro a ha b hb
      have hb' : b ∉ semL := by simpa using (List.mem_filter.mp hb).2
      show fusedScore 1 0 semL lexL b ≤ fusedScore 1 0 semL lexL a
      rw [fusedScore_one_zero, fusedScore_one_zero, rankContrib_of_not_mem hb']
      exact rankContrib_nonneg _ _
  rw [fuse, stableSortDesc, hsorted.insertionSort_eq, List.filter_append]
  have h1 : semL.filter (fun x => decide (x ∈ semL)) = semL :=
    List.filter_eq_self.mpr (fun a ha => by simpa using ha)
  have h2 : (lexL.filter (fun x => decide (x ∉ semL))).filter
      (fun x => decide (x ∈ semL)) = [] := by
    rw [List.filter_eq_nil_iff]
    intro a ha
    have := (List.mem_filter.mp ha).2
    simpa using this
  rw [h1, h2, List.append_nil]

/-- With weights (0, 1) the fused order restricted to the lexical
candidates is exactly the lexical ranking. -/
theorem fuse_zero_one (semL lexL : List α) (hs : semL.Nodup) (hl : lexL.Nodup) :
    (fuse 0 1 semL lexL).filter (fun x => decide (x ∈ lexL)) = lexL := by
  have hpf : ((fuse 0 1 semL lexL).filter (fun x => decide (x ∈ lexL))).Perm lexL := by
    have hp := ((List.perm_insertionSort (scoreGe (fusedScore 0 1 semL lexL))
      (semL ++ lexL.filter (fun x => decide (x ∉ semL)))).trans
        (union_perm semL lexL hs hl)).filter (fun x => decide (x ∈ lexL))
    rw [List.filter_append] at hp
    have h1 : lexL.filter (fun x => decide (x ∈ lexL)) = lexL :=
      List.filter_eq_self.mpr (fun a ha => by simpa using ha)
    have h2 : (semL.filter (fun x => decide (x ∉ lexL))).filter
        (fun x => decide (x ∈ lexL)) = [] := by
      rw [List.filter_eq_nil_iff]
      intro a ha
      have := (List.mem_filter.mp ha).2
      simpa using this
    rw [h1, h2, List.append_nil] at hp
    exact hp
  have hsorted_f : ((fuse 0 1 semL lexL).filter (fun x => decide (x ∈ lexL))).Sorted
      (scoreGe (fusedScore 0 1 semL lexL)) :=
    (List.sorted_insertionSort _ _).filter _
  have hsorted_lex : lexL.Sorted (scoreGe (fusedScore 0 1 semL lexL)) :=
    (sorted_scoreGe_rankContrib lexL hl).imp (fun {a b} h => by
      simpa only [scoreGe, fusedScore_zero_one] using h)
  apply eq_of_perm_of_sortedDesc (fusedScore 0 1 semL lexL) _ _ hpf hsorted_f hsorted_lex
  intro a ha b hb hab
  have ha' : a ∈ lexL := by simpa using (List.mem_filter.mp ha).2
  have hb' : b ∈ lexL := by simpa using (List.mem_filter.mp hb).2
  rw [fusedScore_zero_one, fusedScore_zero_one] at hab
  exact rankContrib_inj_mem ha' hb' hab

end Fusion

theorem mkChunksAux_map_text (minLen : Int) (st sn : Option String) :
    ∀ i pieces,
      (mkChunksAux minLen st sn i pieces).map Chunk.text
        = ((pieces.map fun pc => clean pc.1).filter (keepChunk minLen)) := by
  intro i pieces
  induction pieces generalizing i with
  | nil => simp [mkChunksAux]
  | cons hd tl ih =>
    obtain ⟨txt, page⟩ := hd
    by_cases hk : keepChunk minLen (clean txt) = true
    · simp [mkChunksAux, List.filter, hk, ih]
    · simp only [Bool.not_eq_true] at hk
      simp [mkChunksAux, List.filter, hk, ih]

/-- C9: every chunk retained by an ingestion call has nonempty normalized
text whose length strictly exceeds `min_chunk_length`, and the retained
texts are exactly the normalized pieces passing the strict-length filter —
pieces at or below the threshold never appear. -/
theorem c9_min_length_filter (minLen : Int) (st sn : Option String)
    (pieces : List (String × Nat)) :
    (∀ c ∈ mkChunksAux minLen st sn 0 pieces,
        c.text ≠ "" ∧ minLen < (c.text.length : Int))
    ∧ (mkChunksAux minLen st sn 0 pieces).map Chunk.text
        = ((pieces.map fun pc => clean pc.1).filter (keepChunk minLen)) := by
  constructor
  · intro c hc
    have hmem : c.text ∈ (mkChunksAux minLen st sn 0 pieces).map Chunk.text :=
      List.mem_map_of_mem _ hc
    rw [mkChunksAux_map_text] at hmem
    have hkeep := (List.mem_filter.mp hmem).2
    simpa [keepChunk] using hkeep
  · exact mkChunksAux_map_text minLen st sn 0 pieces

set_option maxRecDepth 4000 in
/-- C9 witness: a concrete ingestion with threshold 2 retains the piece
"hello" (length 5 > 2) and the retained chunk satisfies the bound. -/
theorem c9_witness :
    ((⟨mkChunkId 0 0, "hello", 0, none, none⟩ : Chunk)
        ∈ mkChunksAux 2 none none 0 [("hello", 0), ("a", 0)])
    ∧ ("hello" ≠ "" ∧ (2 : Int) < (("hello").length : Int)) := by
  refine ⟨by decide, ?_⟩
  exact (c9_min_length_filter 2 none none [("hello", 0), ("a", 0)]).1
    ⟨mkChunkId 0 0, "hello", 0, none, none⟩ (by decide)

/-- C7 (amended): a retained chunk's id is `chunk_{page}_{idx}` where
`idx` is the chunk's 0-based position among **all** split pieces of the
ingestion call — discarded pieces included — and the id carries no source
identity. -/
theorem c7_chunk_id_form (minLen : Int) (st sn : Option String)
    (pieces : List (String × Nat)) :
    (mkChunksAux minLen st sn 0 pieces).map Chunk.chunk_id
      = ((List.enumFrom 0 pieces).filter fun x => keepChunk minLen (clean x.2.1)).map
          fun x => mkChunkId x.2.2 x.1 := by
  rw [mkChunksAux_eq_enumFrom, List.map_map]
  rfl

set_option maxRecDepth 4000 in
/-- C7 counterexample: with pieces (121 chars, 1 char, 121 chars) and
threshold 120 the middle piece is discarded, yet the second retained chunk
is numbered 2, not 1, and no id has the `source_id:position:sequence`
colon-separated form. -/
theorem c7_counterexample :
    (mkChunksAux 120 none none 0 [(tA, 0), ("b", 0), (tC, 0)]).map Chunk.chunk_id
      = ["chunk_0_0", "chunk_0_2"]
    ∧ ¬(':' ∈ "chunk_0_0".data) ∧ ¬(':' ∈ "chunk_0_2".data)
    ∧ "chunk_0_2" ≠ "chunk_0_1" := by decide

/-- C2 (amended): the chunk ids generated by any single ingestion call —
`add_pdf`, `add_text_file` or `add_manual_text`, over any prior state —
are pairwise distinct. -/
theorem c2_ids_unique_per_call (split : String → List String) (st : MSState)
    (rawPages : List (String × Nat)) (pdfPath content textPath name : String) :
    ((((addPdf split st rawPages pdfPath name).docs.drop st.docs.length).map
        Chunk.chunk_id).Nodup)
    ∧ ((((addTextFile split st content textPath name).docs.drop st.docs.length).map
        Chunk.chunk_id).Nodup)
    ∧ ((((addManualText split st content name).docs.drop st.docs.length).map
        Chunk.chunk_id).Nodup) := by
  refine ⟨?_, ?_, ?_⟩ <;>
    simp only [addPdf, addTextFile, addManualText, List.drop_left] <;>
    exact mkChunksAux_ids_nodup _ _ _ _ _

set_option maxRecDepth 4000 in
/-- C2 counterexample: two `add_manual_text` calls ingesting the same text
produce two chunks with the identical id `chunk_0_0`; ids are not unique
across the corpus. -/
theorem c2_counterexample :
    ¬((sysA3.docs.map Chunk.chunk_id).Nodup)
    ∧ sysA3.sources.length = 2 ∧ sysA3.docs.length = 2
    ∧ sysA3.docs.map Chunk.chunk_id = ["chunk_0_0", "chunk_0_0"] := by decide

/-- C1 (amended): mutating the chunk set does not invalidate the captured
indexes and no `IndexNotReady` failure exists.  After an `add_manual_text`
on a system whose indexes are built, a searcher constructed from the
mutated system captures the pre-mutation indexes, and `search` succeeds,
returning results computed from the chunk sets those stale indexes were
built from; no argument ever makes `search` fail with `IndexNotReady`. -/
theorem c1_search_after_mutation (st : MSState) (vs : VSState) (bm : BM25State)
    (hv : st.vectorstore = some vs) (hb : st.bm25 = some bm)
    (split : String → List String) (content name q : String) (k ck : Nat)
    (ws wk : Rat) (semRank bmRank : List Chunk → String → List Chunk)
    (ce : String → String → Rat) :
    mkRerankerE (addManualText split st content name)
      = .ok ⟨(addManualText split st content name).docs, some bm, vs⟩
    ∧ searchMS semRank bmRank ce
        ⟨(addManualText split st content name).docs, some bm, vs⟩ q k ws wk ck
      = .ok (rerankChunks ce q
          (fuse ws wk ((semRank vs.docs q).take 60) ((bmRank bm.docs q).take bm.k)) k)
    ∧ (∀ rr : Reranker,
        searchMS semRank bmRank ce rr q k ws wk ck ≠ .error RagError.indexNotReady) := by
  refine ⟨?_, rfl, ?_⟩
  · simp [mkRerankerE, addManualText, hv, hb]
  · intro rr
    cases hrb : rr.bm25 <;> simp [searchMS, hrb]

/-- C1 witness: the amended statement applied to the concrete READY state
`stC1`: its hypotheses hold by `rfl` and search never yields
`IndexNotReady`. -/
theorem c1_witness :
    stC1.vectorstore = some ⟨[cA1]⟩ ∧ stC1.bm25 = some ⟨[cA1], 60⟩
    ∧ (∀ rr : Reranker,
        searchMS (fun d _ => d) (fun d _ => d) (fun _ _ => 0) rr "q" 3 1 0 60
          ≠ .error RagError.indexNotReady) :=
  ⟨rfl, rfl,
    (c1_search_after_mutation stC1 ⟨[cA1]⟩ ⟨[cA1], 60⟩ rfl rfl splitWhole tA "s2"
      "q" 3 60 1 0 (fun d _ => d) (fun d _ => d) (fun _ _ => 0)).2.2⟩

set_option maxRecDepth 4000 in
/-- C1 counterexample: ingest, build, then add a second source without
rebuilding — the spec calls this state stale and demands `IndexNotReady` —
yet a searcher over the mutated system returns `ok` with results computed
from the index built before the mutation (only `cA1`, not `cA2`). -/
theorem c1_counterexample :
    sysA2.docs = [cA1] ∧ sysA3.docs = [cA1, cA2]
    ∧ mkRerankerE sysA3 = .ok ⟨[cA1, cA2], some ⟨[cA1], 60⟩, ⟨[cA1]⟩⟩
    ∧ searchMS (fun d _ => d) (fun d _ => d) (fun _ _ => 0)
        ⟨[cA1, cA2], some ⟨[cA1], 60⟩, ⟨[cA1]⟩⟩ "q" 3 1 1 60 = .ok [cA1]
    ∧ searchMS (fun d _ => d) (fun d _ => d) (fun _ _ => 0)
        ⟨[cA1, cA2], some ⟨[cA1], 60⟩, ⟨[cA1]⟩⟩ "q" 3 1 1 60
        ≠ .error RagError.indexNotReady := by decide

/-- C3 (amended): `build_index` on an empty chunk set fails with
`EmptyCorpus` and changes nothing; on a nonempty chunk set it first
deletes the persisted store and rebuilds the lexical index, so a failure
while building the semantic index leaves that partial mutation behind,
while a successful build installs all three structures. -/
theorem c3_build_index (st : MSState) (e : Bool) :
    (st.docs = [] → buildIndex e st = (some RagError.emptyCorpus, st))
    ∧ (st.docs ≠ [] → buildIndex false st
        = (some RagError.embeddingFailure,
            { st with
              persistStore := none
              bm25 := some ⟨st.docs, 60⟩ }))
    ∧ (st.docs ≠ [] → buildIndex true st
        = (none,
            { st with
              persistStore := some st.docs
              bm25 := some ⟨st.docs, 60⟩
              vectorstore := some ⟨st.docs⟩ })) := by
  refine ⟨fun h => ?_, fun h => ?_, fun h => ?_⟩ <;> simp [buildIndex, h]

set_option maxRecDepth 4000 in
/-- C3 witness: the empty-corpus branch on a fresh system and the failing
branch on the READY state `stC1`. -/
theorem c3_witness :
    (initMS "db" none).docs = [] ∧ stC1.docs ≠ []
    ∧ buildIndex true (initMS "db" none) = (some RagError.emptyCorpus, initMS "db" none)
    ∧ buildIndex false stC1
      = (some RagError.embeddingFailure,
          { stC1 with
            persistStore := none
            bm25 := some ⟨stC1.docs, 60⟩ }) :=
  ⟨rfl, by decide, (c3_build_index (initMS "db" none) true).1 rfl,
    (c3_build_index stC1 false).2.1 (by decide)⟩

set_option maxRecDepth 4000 in
/-- C3 counterexample: on the READY-then-mutated state `sysA3` (persisted
store `some [cA1]`, lexical index over `[cA1]`), a `build_index` whose
semantic-index construction fails reports an error *and* leaves the
persisted store deleted and the lexical index rebuilt over the new chunk
set — visible partial mutation. -/
theorem c3_counterexample :
    (buildIndex false sysA3).1 = some RagError.embeddingFailure
    ∧ sysA3.persistStore = some [cA1]
    ∧ (buildIndex false sysA3).2.persistStore = none
    ∧ sysA3.bm25 = some ⟨[cA1], 60⟩
    ∧ (buildIndex false sysA3).2.bm25 = some ⟨[cA1, cA2], 60⟩ := by decide

/-- C4 (amended): `remove_source(i)` with `i` outside `[0, len(sources))`
fails with `IndexOutOfRange` and changes nothing; otherwise it removes
exactly the `i`-th registry entry and purges chunks by `(type, name)`
match, so afterwards zero chunks of the removed source's key remain, and —
provided the registered sources carry pairwise-distinct `(type, name)`
keys — the chunks of every other source are unchanged in content and
count. -/
theorem c4_remove_source (st : MSState) (i : Int) :
    (¬(0 ≤ i ∧ i < (st.sources.length : Int)) →
      removeSource st i = .error RagError.indexOutOfRange)
    ∧ (0 ≤ i → i < (st.sources.length : Int) →
        (st.sources.Pairwise fun a b => (a.type, a.name) ≠ (b.type, b.name)) →
        ∃ st', removeSource st i = .ok st'
          ∧ st'.sources = st.sources.eraseIdx i.toNat
          ∧ st'.bm25 = none ∧ st'.vectorstore = none
          ∧ st'.docs.filter (chunkOf (st.sources.getD i.toNat ⟨"", "", none⟩)) = []
          ∧ ∀ j, j < st.sources.length → j ≠ i.toNat →
              st'.docs.filter (chunkOf (st.sources.getD j ⟨"", "", none⟩))
                = st.docs.filter (chunkOf (st.sources.getD j ⟨"", "", none⟩))) := by
  constructor
  · intro h
    have hc : i < 0 ∨ (st.sources.length : Int) ≤ i := by omega
    simp [removeSource, hc]
  · intro h0 hlt hdist
    have hc : ¬(i < 0 ∨ (st.sources.length : Int) ≤ i) := by omega
    have hnat : i.toNat < st.sources.length := by omega
    refine ⟨{ st with
        docs := st.docs.filter fun c =>
          !(chunkOf (st.sources.getD i.toNat ⟨"", "", none⟩) c)
        sources := st.sources.eraseIdx i.toNat
        bm25 := none
        vectorstore := none }, ?_, rfl, rfl, rfl, ?_, ?_⟩
    · simp only [removeSource]
      rw [if_neg hc]
    · rw [List.filter_eq_nil_iff]
      intro c hcmem
      have h2 := (List.mem_filter.mp hcmem).2
      simp only [Bool.not_eq_eq_eq_not, Bool.not_true] at h2
      rw [h2]
      exact Bool.false_ne_true
    · intro j hj hne
      rw [List.filter_filter]
      apply List.filter_congr
      intro c _
      by_cases hcj : chunkOf (st.sources.getD j ⟨"", "", none⟩) c = true
      · have hkeys : ((st.sources.getD j ⟨"", "", none⟩).type,
            (st.sources.getD j ⟨"", "", none⟩).name)
            ≠ ((st.sources.getD i.toNat ⟨"", "", none⟩).type,
              (st.sources.getD i.toNat ⟨"", "", none⟩).name) := by
          rw [List.getD_eq_getElem _ _ hj, List.getD_eq_getElem _ _ hnat]
          have hpw := List.pairwise_iff_get.mp hdist
          rcases Nat.lt_or_ge j i.toNat with hlt' | hge
          · exact hpw ⟨j, hj⟩ ⟨i.toNat, hnat⟩ hlt'
          · have hlt'' : i.toNat < j := by omega
            exact (hpw ⟨i.toNat, hnat⟩ ⟨j, hj⟩ hlt'').symm
        have hci : chunkOf (st.sources.getD i.toNat ⟨"", "", none⟩) c = false := by
          rw [Bool.eq_false_iff]
          intro hci
          simp only [chunkOf, decide_eq_true_eq] at hci hcj
          apply hkeys
          have h1 := hcj.1.symm.trans hci.1
          have h2 := hcj.2.symm.trans hci.2
          simp only [Option.some_inj] at h1 h2
          rw [Prod.mk.injEq]
          exact ⟨h1, h2⟩
        rw [hcj, hci]
        rfl
      · simp only [Bool.not_eq_true] at hcj
        rw [hcj]
        rfl

set_option maxRecDepth 4000 in
/-- C4 witness: removing source 0 from a two-source state with distinct
keys purges exactly its chunk and leaves the other source's chunk
untouched. -/
theorem c4_witness :
    (0 : Int) ≤ 0 ∧ (0 : Int) < (stW4.sources.length : Int)
    ∧ (stW4.sources.Pairwise fun a b => (a.type, a.name) ≠ (b.type, b.name))
    ∧ ∃ st', removeSource stW4 0 = .ok st'
        ∧ st'.sources = stW4.sources.eraseIdx (0 : Int).toNat
        ∧ st'.bm25 = none ∧ st'.vectorstore = none
        ∧ st'.docs.filter (chunkOf (stW4.sources.getD (0 : Int).toNat ⟨"", "", none⟩)) = []
        ∧ ∀ j, j < stW4.sources.length → j ≠ (0 : Int).toNat →
            st'.docs.filter (chunkOf (stW4.sources.getD j ⟨"", "", none⟩))
              = stW4.docs.filter (chunkOf (stW4.sources.getD j ⟨"", "", none⟩)) := by
  refine ⟨by decide, by decide, by decide, ?_⟩
  exact (c4_remove_source stW4 0).2 (by decide) (by decide) (by decide)

set_option maxRecDepth 4000 in
/-- C4 counterexample: two registered sources sharing the key
`("manual_text", "a")` hold one chunk each; removing source 0 also purges
the other source's chunk — the surviving source's chunk count drops from
1 to 0. -/
theorem c4_counterexample :
    (addManualText splitWhole (addManualText splitWhole (initMS "db" none) tA "a")
        tA "a").docs.length = 2
    ∧ removeSource (addManualText splitWhole
        (addManualText splitWhole (initMS "db" none) tA "a") tA "a") 0
      = .ok ⟨"db", [], [⟨"manual_text", "a", none⟩], none, none, none⟩ := by decide

/-- C5: fusion at weights (1, 0) ordered like the semantic ranking and at
(0, 1) like the lexical ranking, once each fused list is restricted to the
respective index's candidate set.  The candidate lists returned by an
index are duplicate-free. -/
theorem c5_fuse_degenerate (semL lexL : List Chunk) (hs : semL.Nodup)
    (hl : lexL.Nodup) :
    (fuse 1 0 semL lexL).filter (fun x => decide (x ∈ semL)) = semL
    ∧ (fuse 0 1 semL lexL).filter (fun x => decide (x ∈ lexL)) = lexL :=
  ⟨fuse_one_zero semL lexL hs, fuse_zero_one semL lexL hs hl⟩

/-- C5 witness: concrete one-element candidate lists. -/
theorem c5_witness :
    ([(⟨"x1", "t1", 0, none, none⟩ : Chunk)].Nodup
      ∧ [(⟨"x2", "t2", 0, none, none⟩ : Chunk)].Nodup)
    ∧ ((fuse 1 0 [(⟨"x1", "t1", 0, none, none⟩ : Chunk)]
          [(⟨"x2", "t2", 0, none, none⟩ : Chunk)]).filter
            (fun x => decide (x ∈ [(⟨"x1", "t1", 0, none, none⟩ : Chunk)]))
          = [(⟨"x1", "t1", 0, none, none⟩ : Chunk)]
        ∧ (fuse 0 1 [(⟨"x1", "t1", 0, none, none⟩ : Chunk)]
            [(⟨"x2", "t2", 0, none, none⟩ : Chunk)]).filter
              (fun x => decide (x ∈ [(⟨"x2", "t2", 0, none, none⟩ : Chunk)]))
          = [(⟨"x2", "t2", 0, none, none⟩ : Chunk)]) :=
  ⟨⟨by decide, by decide⟩,
    c5_fuse_degenerate [⟨"x1", "t1", 0, none, none⟩] [⟨"x2", "t2", 0, none, none⟩]
      (by decide) (by decide)⟩

/-- C6: rerank sorts the candidates descending by cross-encoder score with
a stable sort — each score class keeps its fusion order — truncates to
`min k |candidates|`, and the output is a reordered sub-multiset of the
input with no text altered, introduced, or dropped. -/
theorem c6_rerank (ce : String → String → Rat) (q : String)
    (candidates : List Chunk) (k : Nat) (hk : 1 ≤ k) :
    (rerankChunks ce q candidates k).length = min k candidates.length
    ∧ (rerankChunks ce q candidates k).Subperm candidates
    ∧ (rerankChunks ce q candidates k).Sorted (scoreGe fun d => ce q d.text)
    ∧ ∀ c : Rat,
        ((rerankChunks ce q candidates k).filter
            fun x => decide (ce q x.text = c)).Sublist
          (candidates.filter fun x => decide (ce q x.text = c)) := by
  refine ⟨?_, ?_, ?_, ?_⟩
  · simp [rerankChunks, stableSortDesc, List.length_take]
  · exact ((List.take_sublist _ _).subperm).trans
      (List.perm_insertionSort _ _).subperm
  · exact List.Pairwise.sublist (List.take_sublist _ _)
      (List.sorted_insertionSort _ _)
  · intro c
    have h1 := (List.take_sublist k
        (stableSortDesc (fun d => ce q d.text) candidates)).filter
      (fun x => decide (ce q x.text = c))
    have h2 : (stableSortDesc (fun d => ce q d.text) candidates).filter
        (fun x => decide (ce q x.text = c))
        = candidates.filter (fun x => decide (ce q x.text = c)) :=
      filter_stableSortDesc_score (fun d => ce q d.text) c candidates
    exact h2 ▸ h1

/-- C6 witness: a concrete rerank of a two-candidate list at `k = 1`. -/
theorem c6_witness :
    1 ≤ 1
    ∧ (rerankChunks (fun _ _ => 0) "q"
        [⟨"x1", "t1", 0, none, none⟩, ⟨"x2", "t2", 0, none, none⟩] 1).length
      = min 1 [(⟨"x1", "t1", 0, none, none⟩ : Chunk),
          ⟨"x2", "t2", 0, none, none⟩].length
    ∧ (rerankChunks (fun _ _ => 0) "q"
        [⟨"x1", "t1", 0, none, none⟩, ⟨"x2", "t2", 0, none, none⟩] 1).Subperm
      [⟨"x1", "t1", 0, none, none⟩, ⟨"x2", "t2", 0, none, none⟩] :=
  ⟨by decide,
    (c6_rerank (fun _ _ => 0) "q"
      [⟨"x1", "t1", 0, none, none⟩, ⟨"x2", "t2", 0, none, none⟩] 1 (by decide)).1,
    (c6_rerank (fun _ _ => 0) "q"
      [⟨"x1", "t1", 0, none, none⟩, ⟨"x2", "t2", 0, none, none⟩] 1 (by decide)).2.1⟩

/-- C8 (amended): no configuration parameter is validated at entry: the
constructor accepts and stores any `chunk_size`, `chunk_overlap` and
`min_chunk_length` verbatim, and `search` accepts any `k` and any weights
without failing. -/
theorem c8_no_entry_validation :
    (∀ pd : String, ∀ cs co ml : Int, ∀ disk : Option (List Chunk),
      mkPDFRagSystemE pd cs co ml disk = .ok (initPDF pd cs co ml disk)
      ∧ (initPDF pd cs co ml disk).chunk_size = cs
      ∧ (initPDF pd cs co ml disk).chunk_overlap = co
      ∧ (initPDF pd cs co ml disk).min_chunk_length = ml)
    ∧ (∀ semRank bmRank : List Chunk → String → List Chunk,
        ∀ ce : String → String → Rat, ∀ docs : List Chunk, ∀ bm : BM25State,
        ∀ vs : VSState, ∀ q : String, ∀ ws wk : Rat, ∀ ck : Nat,
        ∃ res, searchMS semRank bmRank ce ⟨docs, some bm, vs⟩ q 0 ws wk ck
          = .ok res) :=
  ⟨fun _ _ _ _ _ => ⟨rfl, rfl, rfl, rfl⟩,
    fun _ _ _ _ _ _ _ _ _ _ => ⟨_, rfl⟩⟩

/-- C8 counterexample: a constructor call with `chunk_size = -5 ≤ 0`,
`chunk_overlap = -1 ∉ [0, chunk_size)` and `min_chunk_length = -7 < 0`
succeeds instead of failing at entry. -/
theorem c8_counterexample :
    mkPDFRagSystemE "db" (-5) (-1) (-7) none = .ok (initPDF "db" (-5) (-1) (-7) none)
    ∧ ¬((0 : Int) < -5) ∧ ¬((0 : Int) ≤ -1) ∧ ¬((0 : Int) ≤ -7) := by decide

/-- C10: `import_pdf` and `import_text_file` replace the chunk set with the
newly imported file's chunks alone and rebuild both indexes from it: the
resulting chunk set, lexical index and semantic index are independent of
whatever was previously imported, so the interface holds at most one
source at a time. -/
theorem c10_import_replaces
    (splitDocs : Int → Int → List (String × Nat) → List (String × Nat))
    (st : PDFState) (rawPages : List (String × Nat)) (textPath content : String) :
    (importPdf splitDocs st rawPages).docs
      = mkChunksAux st.min_chunk_length none none 0
          (splitDocs st.chunk_size st.chunk_overlap rawPages)
    ∧ (importPdf splitDocs st rawPages).docs
      = (importPdf splitDocs
          (initPDF st.persist_dir st.chunk_size st.chunk_overlap
            st.min_chunk_length st.persistStore) rawPages).docs
    ∧ (importPdf splitDocs st rawPages).bm25
      = some ⟨(importPdf splitDocs st rawPages).docs, 60⟩
    ∧ (importPdf splitDocs st rawPages).vectorstore
      = some ⟨(importPdf splitDocs st rawPages).docs⟩
    ∧ (importTextFile splitDocs st textPath content).docs
      = mkChunksAux st.min_chunk_length none none 0
          (splitDocs st.chunk_size st.chunk_overlap [(content, 0)])
    ∧ (importTextFile splitDocs st textPath content).docs
      = (importTextFile splitDocs
          (initPDF st.persist_dir st.chunk_size st.chunk_overlap
            st.min_chunk_length st.persistStore) textPath content).docs
    ∧ (importTextFile splitDocs st textPath content).bm25
      = some ⟨(importTextFile splitDocs st textPath content).docs, 60⟩
    ∧ (importTextFile splitDocs st textPath content).vectorstore
      = some ⟨(importTextFile splitDocs st textPath content).docs⟩ :=
  ⟨rfl, rfl, rfl, rfl, rfl, rfl, rfl, rfl⟩

end RagSpec
